import Mathlib

/-!
Verification of the `pipebuffer` ring buffer (`src/ringbuffer.rs` and the
byte-specialised copy in `src/main.rs`) against its specification.

The Rust code is shallowly embedded: `Vec<T>` storage becomes `List T`,
`usize` becomes `Nat`, and operations that can abort at runtime (writing to
a closed buffer, slice indexing out of range, `%` by zero, `usize`
subtraction overflow) return `Except String _`, with `Except.error` marking
the abort.
-/

namespace PipeBuffer

/-- Overwrite `buf[start .. start + src.length)` with `src`, leaving the rest
of `buf` unchanged.  This is the semantics of Rust's
`buf[start..start+len].clone_from_slice(src)` when `start + src.length ≤
buf.length` (the embedding checks that bound before using `writeSlice`). -/
def writeSlice {T : Type} (buf : List T) (start : Nat) (src : List T) : List T :=
  buf.take start ++ src ++ buf.drop (start + src.length)

/-- The fields of `RingBuffer<T>` from `src/ringbuffer.rs`. -/
structure RingBuffer (T : Type) where
  capacity : Nat
  buffer : List T
  write_pos : Nat
  available_to_write : Nat
  read_pos : Nat
  available_to_read : Nat
  closed : Bool
deriving Repr, DecidableEq

namespace RingBuffer

/-- `RingBuffer::new` from `src/ringbuffer.rs`.  The Rust code allocates
storage of length `size` with *unspecified* contents
(`Vec::with_capacity(size)` followed by a raw `set_len(size)`), so the
model takes those arbitrary initial contents as the parameter `junk`;
theorems assume `junk.length = size`. -/
def new {T : Type} (size : Nat) (junk : List T) : RingBuffer T :=
  { capacity := size
    buffer := junk
    write_pos := 0
    available_to_write := size
    read_pos := 0
    available_to_read := 0
    closed := false }

/-- `RingBuffer::put` from `src/ringbuffer.rs`.  `Except.error` marks the
places where the Rust code aborts: the explicit abort on a closed buffer,
`usize` subtraction overflow, slice indexing past the end of the storage,
and `% capacity` with `capacity = 0`. -/
def put {T : Type} (s : RingBuffer T) (input : List T) :
    Except String (Nat × RingBuffer T) :=
  if s.closed then .error "Cannot write to closed buffer."
  else if s.available_to_write = 0 then .ok (0, s)
  else if s.write_pos ≤ s.capacity then
    let distance_to_end := s.capacity - s.write_pos
    let available := min distance_to_end s.available_to_write
    let length := min available input.length
    if s.write_pos + length ≤ s.buffer.length then
      if s.capacity ≠ 0 then
        .ok (length,
          { s with
            buffer := writeSlice s.buffer s.write_pos (input.take length)
            available_to_write := s.available_to_write - length
            available_to_read := s.available_to_read + length
            write_pos := (s.write_pos + length) % s.capacity })
      else .error "attempt to calculate the remainder with a divisor of zero"
    else .error "slice index out of range"
  else .error "attempt to subtract with overflow"

/-- `RingBuffer::get` from `src/ringbuffer.rs`.  The caller's slice `output`
is passed in as a list; the result is the reported count, the updated
contents of `output` (its front overwritten by the fetched items), and the
updated buffer.  `Except.error` marks the aborts as in `put`; note that
`get` never consults `closed`. -/
def get {T : Type} (s : RingBuffer T) (output : List T) :
    Except String (Nat × List T × RingBuffer T) :=
  if s.read_pos ≤ s.capacity then
    let distance_to_end := s.capacity - s.read_pos
    let available := min distance_to_end s.available_to_read
    let length := min available output.length
    if s.read_pos + length ≤ s.buffer.length then
      if s.capacity ≠ 0 then
        .ok (length,
          (s.buffer.drop s.read_pos).take length ++ output.drop length,
          { s with
            available_to_read := s.available_to_read - length
            available_to_write := s.available_to_write + length
            read_pos := (s.read_pos + length) % s.capacity })
      else .error "attempt to calculate the remainder with a divisor of zero"
    else .error "slice index out of range"
  else .error "attempt to subtract with overflow"

/-- `RingBuffer::is_empty` from `src/ringbuffer.rs`. -/
def is_empty {T : Type} (s : RingBuffer T) : Bool := s.available_to_read == 0

/-- `RingBuffer::is_full` from `src/ringbuffer.rs`. -/
def is_full {T : Type} (s : RingBuffer T) : Bool := s.available_to_write == 0

/-- `RingBuffer::close` from `src/ringbuffer.rs`. -/
def close {T : Type} (s : RingBuffer T) : RingBuffer T := { s with closed := true }

/-- `RingBuffer::is_closed` from `src/ringbuffer.rs`. -/
def is_closed {T : Type} (s : RingBuffer T) : Bool := s.closed

end RingBuffer

/-- The fields of the non-generic, `u8`-specialised `RingBuffer` from
`src/main.rs`.  The ring-buffer code never performs arithmetic on the
payload bytes, so `u8` is modelled by `Nat`. -/
structure MainRingBuffer where
  capacity : Nat
  buffer : List Nat
  write_pos : Nat
  available_to_write : Nat
  read_pos : Nat
  available_to_read : Nat
  closed : Bool
deriving Repr, DecidableEq

namespace MainRingBuffer

/-- `RingBuffer::new` from `src/main.rs`: unlike the generic version, the
storage is initialised with `vec![0; size]`, i.e. `size` zero bytes. -/
def new (size : Nat) : MainRingBuffer :=
  { capacity := size
    buffer := List.replicate size 0
    write_pos := 0
    available_to_write := size
    read_pos := 0
    available_to_read := 0
    closed := false }

/-- `RingBuffer::put` from `src/main.rs` (same algorithm as the generic
version, specialised to bytes).  `Except.error` marks runtime aborts. -/
def put (s : MainRingBuffer) (input : List Nat) :
    Except String (Nat × MainRingBuffer) :=
  if s.closed then .error "Cannot write to closed buffer."
  else if s.available_to_write = 0 then .ok (0, s)
  else if s.write_pos ≤ s.capacity then
    let distance_to_end := s.capacity - s.write_pos
    let available := min distance_to_end s.available_to_write
    let length := min available input.length
    if s.write_pos + length ≤ s.buffer.length then
      if s.capacity ≠ 0 then
        .ok (length,
          { s with
            buffer := writeSlice s.buffer s.write_pos (input.take length)
            available_to_write := s.available_to_write - length
            available_to_read := s.available_to_read + length
            write_pos := (s.write_pos + length) % s.capacity })
      else .error "attempt to calculate the remainder with a divisor of zero"
    else .error "slice index out of range"
  else .error "attempt to subtract with overflow"

/-- `RingBuffer::get` from `src/main.rs` (same algorithm as the generic
version, specialised to bytes). -/
def get (s : MainRingBuffer) (output : List Nat) :
    Except String (Nat × List Nat × MainRingBuffer) :=
  if s.read_pos ≤ s.capacity then
    let distance_to_end := s.capacity - s.read_pos
    let available := min distance_to_end s.available_to_read
    let length := min available output.length
    if s.read_pos + length ≤ s.buffer.length then
      if s.capacity ≠ 0 then
        .ok (length,
          (s.buffer.drop s.read_pos).take length ++ output.drop length,
          { s with
            available_to_read := s.available_to_read - length
            available_to_write := s.available_to_write + length
            read_pos := (s.read_pos + length) % s.capacity })
      else .error "attempt to calculate the remainder with a divisor of zero"
    else .error "slice index out of range"
  else .error "attempt to subtract with overflow"

/-- `RingBuffer::close` from `src/main.rs`. -/
def close (s : MainRingBuffer) : MainRingBuffer := { s with closed := true }

/-- `RingBuffer::is_closed` from `src/main.rs`. -/
def is_closed (s : MainRingBuffer) : Bool := s.closed

end MainRingBuffer

/-- The characters of a numeral after Rust's `usize::from_str` strips an
optional leading `+` sign. -/
def usizeDigits (s : List Char) : List Char :=
  match s with
  | '+' :: rest => rest
  | other => other

/-- Rust's `str::parse::<usize>()` (`usize::from_str`), as used by `main` in
`src/main.rs`: an optional leading `+` sign followed by one or more ASCII
decimal digits, rejecting the empty string, any other character, and values
that overflow 64-bit `usize`. -/
def parseUsize (s : List Char) : Option Nat :=
  let digits := usizeDigits s
  if digits = [] then none
  else if digits.all (fun c => c.isDigit) then
    let v := digits.foldl (fun acc c => acc * 10 + (c.toNat - 48)) 0
    if v < 2 ^ 64 then some v else none
  else none

/-- The configuration phase of `main` in `src/main.rs`: with the argument
vector `args` (`args[0]` is the program name), it requires exactly one
further argument and parses it with `str::parse::<usize>()`.  On failure,
`usage_and_exit` prints a usage message plus the given error text and exits
with code 1; that outcome is modelled as `Except.error (message, exit_code)`. -/
def mainConfig (args : List String) : Except (String × Nat) Nat :=
  if args.length ≠ 2 then .error ("No buffer_size supplied.", 1)
  else
    match parseUsize (args.getD 1 "").data with
    | some n => .ok n
    | none => .error ("Non-numeric buffer_size.", 1)

/-- The well-formedness invariant of a ring-buffer state: the storage has
exactly `capacity` slots, the two availability counters sum to `capacity`,
the cursors are valid indices (degenerating to 0 when `capacity = 0`), and
the write cursor sits `available_to_read` slots past the read cursor,
modulo `capacity`. -/
def RingBuffer.Wf {T : Type} (s : RingBuffer T) : Prop :=
  s.buffer.length = s.capacity ∧
  s.available_to_write + s.available_to_read = s.capacity ∧
  (0 < s.capacity →
    s.write_pos < s.capacity ∧ s.read_pos < s.capacity ∧
    s.write_pos = (s.read_pos + s.available_to_read) % s.capacity) ∧
  (s.capacity = 0 → s.write_pos = 0 ∧ s.read_pos = 0)

instance {T : Type} (s : RingBuffer T) : Decidable s.Wf := by
  unfold RingBuffer.Wf; infer_instance

/-- The abstract queue contents of a ring-buffer state: the
`available_to_read` stored items, read in FIFO order starting at
`read_pos` and wrapping modulo `capacity`.  `d` is a dummy default for
list indexing; under `Wf` every index is in range, so `d` never shows. -/
def RingBuffer.absQ {T : Type} (s : RingBuffer T) (d : T) : List T :=
  (List.range s.available_to_read).map
    (fun i => s.buffer.getD ((s.read_pos + i) % s.capacity) d)

/-- One call against a `RingBuffer`: `put` with an input slice, `get` with
an output slice, or `close`. -/
inductive Op (T : Type) where
  | put (input : List T)
  | get (output : List T)
  | close
deriving Repr

/-- Apply one call to a ring-buffer state, keeping only the resulting state
(an `Except.error` is a runtime abort of the Rust program). -/
def RingBuffer.step {T : Type} (s : RingBuffer T) : Op T → Except String (RingBuffer T)
  | .put input => (s.put input).map (fun r => r.2)
  | .get output => (s.get output).map (fun r => r.2.2)
  | .close => .ok s.close

/-- Apply a sequence of calls left to right, stopping at the first abort. -/
def RingBuffer.run {T : Type} (s : RingBuffer T) : List (Op T) → Except String (RingBuffer T)
  | [] => .ok s
  | op :: ops => (s.step op).bind (fun s' => s'.run ops)

/-- A configuration of the producer/consumer relay around one shared
buffer: `pending` is the not-yet-accepted suffix of the producer's input
chunk, `buf` the shared ring buffer, `out` the concatenation of everything
the consumer has fetched so far. -/
structure RelayState (T : Type) where
  pending : List T
  buf : RingBuffer T
  out : List T
deriving Repr

/-- One scheduling step of the relay: either the producer calls `put` with
the remaining input (advancing its offset by the returned count, as the
producer loop in `main` does), or the consumer calls `get` with some scratch
slice and appends the fetched front of it to the output (as the consumer
loop in `main` does). -/
inductive RelayOp (T : Type) where
  | prod
  | cons (output : List T)
deriving Repr

def relayStep {T : Type} (st : RelayState T) :
    RelayOp T → Except String (RelayState T)
  | .prod => (st.buf.put st.pending).map
      (fun r => { pending := st.pending.drop r.1, buf := r.2, out := st.out })
  | .cons output => (st.buf.get output).map
      (fun r =>
        { pending := st.pending, buf := r.2.2, out := st.out ++ r.2.1.take r.1 })

def relayRun {T : Type} (st : RelayState T) :
    List (RelayOp T) → Except String (RelayState T)
  | [] => .ok st
  | op :: ops => (relayStep st op).bind (fun st' => relayRun st' ops)

/-- A call through the public interface shared by the two `RingBuffer`
implementations, for comparing them observationally. -/
inductive ObsOp where
  | put (input : List Nat)
  | get (output : List Nat)
  | close
  | is_closed
deriving Repr

/-- What a caller observes from one call: the count written, the count
fetched together with the updated output slice, nothing (`close`), or the
closed flag. -/
inductive Obs where
  | wrote (n : Nat)
  | fetched (n : Nat) (output : List Nat)
  | unit
  | flag (b : Bool)
deriving Repr, DecidableEq

def MainRingBuffer.stepObs (s : MainRingBuffer) :
    ObsOp → Except String (Obs × MainRingBuffer)
  | .put input => (s.put input).map (fun r => (.wrote r.1, r.2))
  | .get output => (s.get output).map (fun r => (.fetched r.1 r.2.1, r.2.2))
  | .close => .ok (.unit, s.close)
  | .is_closed => .ok (.flag s.is_closed, s)

def MainRingBuffer.runObs (s : MainRingBuffer) :
    List ObsOp → Except String (List Obs × MainRingBuffer)
  | [] => .ok ([], s)
  | op :: ops => (s.stepObs op).bind
      (fun r => (MainRingBuffer.runObs r.2 ops).map (fun r2 => (r.1 :: r2.1, r2.2)))

def RingBuffer.stepObs (s : RingBuffer Nat) :
    ObsOp → Except String (Obs × RingBuffer Nat)
  | .put input => (s.put input).map (fun r => (.wrote r.1, r.2))
  | .get output => (s.get output).map (fun r => (.fetched r.1 r.2.1, r.2.2))
  | .close => .ok (.unit, s.close)
  | .is_closed => .ok (.flag s.is_closed, s)

def RingBuffer.runObs (s : RingBuffer Nat) :
    List ObsOp → Except String (List Obs × RingBuffer Nat)
  | [] => .ok ([], s)
  | op :: ops => (s.stepObs op).bind
      (fun r => (RingBuffer.runObs r.2 ops).map (fun r2 => (r.1 :: r2.1, r2.2)))

/-- Two generic buffer states that differ at most in storage slots that are
not currently filled: identical scalar fields, storages of equal length,
identical abstract queue contents.  This is exactly the gap left by the two
constructors (zero-initialised versus uninitialised storage). -/
def EquivUpToJunk (a b : RingBuffer Nat) : Prop :=
  a.capacity = b.capacity ∧ a.write_pos = b.write_pos ∧
  a.read_pos = b.read_pos ∧
  a.available_to_write = b.available_to_write ∧
  a.available_to_read = b.available_to_read ∧
  a.closed = b.closed ∧ a.buffer.length = b.buffer.length ∧
  a.absQ 0 = b.absQ 0

/-- Field-for-field reinterpretation of the `main.rs` buffer as the generic
one, used to transfer facts between the two identical code bodies. -/
def MainRingBuffer.toGeneric (s : MainRingBuffer) : RingBuffer Nat :=
  { capacity := s.capacity
    buffer := s.buffer
    write_pos := s.write_pos
    available_to_write := s.available_to_write
    read_pos := s.read_pos
    available_to_read := s.available_to_read
    closed := s.closed }

/-- A concrete well-formed buffer exercising the wrap boundary: capacity
10, write cursor at 8, 5 free slots. -/
def wrapState : RingBuffer Nat :=
  { capacity := 10, buffer := [0, 1, 2, 3, 4, 5, 6, 7, 8, 9], write_pos := 8,
    available_to_write := 5, read_pos := 3, available_to_read := 5,
    closed := false }

/-- A concrete well-formed closed buffer with one unread item. -/
def closedState : RingBuffer Nat :=
  { capacity := 4, buffer := [9, 8, 7, 6], write_pos := 2,
    available_to_write := 3, read_pos := 1, available_to_read := 1,
    closed := true }

/-- A concrete well-formed full buffer. -/
def fullState : RingBuffer Nat :=
  { capacity := 3, buffer := [4, 5, 6], write_pos := 1,
    available_to_write := 0, read_pos := 1, available_to_read := 3,
    closed := false }

theorem writeSlice_length {T : Type} (buf : List T) (start : Nat) (src : List T)
    (h : start + src.length ≤ buf.length) :
    (writeSlice buf start src).length = buf.length := by
  unfold writeSlice
  simp only [List.length_append, List.length_take, List.length_drop]
  omega

theorem writeSlice_getD_inside {T : Type} (buf : List T) (start : Nat) (src : List T)
    (h : start + src.length ≤ buf.length) (i : Nat) (d : T)
    (hi1 : start ≤ i) (hi2 : i < start + src.length) :
    (writeSlice buf start src).getD i d = src.getD (i - start) d := by
  unfold writeSlice
  have hlen : (List.take start buf).length = start := by
    rw [List.length_take]; omega
  rw [List.append_assoc, List.getD_eq_getElem?_getD, List.getD_eq_getElem?_getD,
    List.getElem?_append_right (by rw [hlen]; exact hi1), hlen,
    List.getElem?_append, if_pos (by omega : i - start < src.length)]

theorem writeSlice_getD_outside {T : Type} (buf : List T) (start : Nat) (src : List T)
    (h : start + src.length ≤ buf.length) (i : Nat) (d : T)
    (hi : i < start ∨ start + src.length ≤ i) :
    (writeSlice buf start src).getD i d = buf.getD i d := by
  unfold writeSlice
  have hlen : (List.take start buf).length = start := by
    rw [List.length_take]; omega
  rw [List.append_assoc, List.getD_eq_getElem?_getD, List.getD_eq_getElem?_getD]
  rcases hi with hi | hi
  · rw [List.getElem?_append, if_pos (by rw [hlen]; exact hi),
      List.getElem?_take, if_pos hi]
  · rw [List.getElem?_append_right (by rw [hlen]; omega), hlen,
      List.getElem?_append_right (by omega : src.length ≤ i - start),
      List.getElem?_drop]
    have : start + src.length + (i - start - src.length) = i := by omega
    rw [this]

/-- A still-filled slot of the ring never lies in the contiguous region
`[w, w + n)` freshly written by `put`: the write region starts
`available_to_read` slots past the read cursor. -/
theorem ring_old_slot_not_written {cap r a n i : Nat} (hr : r < cap)
    (han : a + n ≤ cap) (hi : i < a) :
    (r + i) % cap < (r + a) % cap ∨ (r + a) % cap + n ≤ (r + i) % cap := by
  by_contra hcon
  push_neg at hcon
  obtain ⟨h1, h2⟩ := hcon
  have hcap : 0 < cap := by omega
  have hme : (r + i) % cap + (a - i) ≡ (r + a) % cap [MOD cap] := by
    calc (r + i) % cap + (a - i)
        ≡ (r + i) + (a - i) [MOD cap] := Nat.ModEq.add_right _ (Nat.mod_modEq _ _)
      _ = r + a := by omega
      _ ≡ (r + a) % cap [MOD cap] := (Nat.mod_modEq _ _).symm
  have hle : (r + a) % cap ≤ (r + i) % cap + (a - i) := by omega
  have hdvd : cap ∣ (r + i) % cap + (a - i) - (r + a) % cap :=
    (Nat.modEq_iff_dvd' hle).mp hme.symm
  have hpos : 0 < (r + i) % cap + (a - i) - (r + a) % cap := by omega
  have hsmall : (r + i) % cap + (a - i) - (r + a) % cap < cap := by omega
  exact absurd (Nat.le_of_dvd hpos hdvd) (by omega)

/-- The `j`-th slot appended by a `put` sits at offset
`available_to_read + j` past the read cursor. -/
theorem ring_new_slot_index {cap r a n j : Nat} (hwn : (r + a) % cap + n ≤ cap)
    (hj : j < n) :
    (r + (a + j)) % cap = (r + a) % cap + j := by
  have hcap : 0 < cap := by omega
  have : (r + (a + j)) % cap = ((r + a) % cap + j) % cap := by
    rw [Nat.mod_add_mod]
    congr 1
    omega
  rw [this, Nat.mod_eq_of_lt (by omega)]

namespace RingBuffer

/-- On an open buffer with a valid write cursor, `put` always succeeds and
does exactly what the code says: the count is the triple minimum and the
state advances accordingly.  (When `available_to_write = 0` the early
return produces the same result, since the triple minimum is then 0.) -/
theorem put_ok {T : Type} (s : RingBuffer T) (input : List T)
    (hbuf : s.buffer.length = s.capacity) (hwp : s.write_pos < s.capacity)
    (hcl : s.closed = false) :
    s.put input =
      .ok (min (min (s.capacity - s.write_pos) s.available_to_write) input.length,
        { s with
          buffer := writeSlice s.buffer s.write_pos
            (input.take (min (min (s.capacity - s.write_pos) s.available_to_write) input.length))
          available_to_write := s.available_to_write -
            min (min (s.capacity - s.write_pos) s.available_to_write) input.length
          available_to_read := s.available_to_read +
            min (min (s.capacity - s.write_pos) s.available_to_write) input.length
          write_pos := (s.write_pos +
            min (min (s.capacity - s.write_pos) s.available_to_write) input.length) %
            s.capacity }) := by
  unfold put
  rw [hcl]
  simp only [Bool.false_eq_true, if_false]
  by_cases hav : s.available_to_write = 0
  · rw [if_pos hav, hav]
    simp only [Nat.min_zero, Nat.zero_min, List.take_zero]
    have hbufeq : writeSlice s.buffer s.write_pos [] = s.buffer := by
      unfold writeSlice
      simp [List.take_append_drop]
    have hwpeq : (s.write_pos + 0) % s.capacity = s.write_pos := by
      rw [Nat.add_zero, Nat.mod_eq_of_lt hwp]
    rw [hbufeq, hwpeq]
    cases s
    simp_all
  · rw [if_neg hav, if_pos (Nat.le_of_lt hwp)]
    have hle : s.write_pos +
        min (min (s.capacity - s.write_pos) s.available_to_write) input.length ≤
        s.buffer.length := by
      rw [hbuf]; omega
    rw [if_pos hle, if_pos (by omega : s.capacity ≠ 0)]

/-- With a valid read cursor, `get` always succeeds and does exactly what
the code says.  No hypothesis on `closed` is needed: `get` never looks at
it. -/
theorem get_ok {T : Type} (s : RingBuffer T) (output : List T)
    (hbuf : s.buffer.length = s.capacity) (hrp : s.read_pos < s.capacity) :
    s.get output =
      .ok (min (min (s.capacity - s.read_pos) s.available_to_read) output.length,
        (s.buffer.drop s.read_pos).take
          (min (min (s.capacity - s.read_pos) s.available_to_read) output.length) ++
          output.drop
            (min (min (s.capacity - s.read_pos) s.available_to_read) output.length),
        { s with
          available_to_read := s.available_to_read -
            min (min (s.capacity - s.read_pos) s.available_to_read) output.length
          available_to_write := s.available_to_write +
            min (min (s.capacity - s.read_pos) s.available_to_read) output.length
          read_pos := (s.read_pos +
            min (min (s.capacity - s.read_pos) s.available_to_read) output.length) %
            s.capacity }) := by
  unfold get
  rw [if_pos (Nat.le_of_lt hrp)]
  have hle : s.read_pos +
      min (min (s.capacity - s.read_pos) s.available_to_read) output.length ≤
      s.buffer.length := by
    rw [hbuf]; omega
  rw [if_pos hle, if_pos (by omega : s.capacity ≠ 0)]

/-- `put` preserves well-formedness, returns a count bounded by the free
space and the input length, and does not change capacity, the read cursor,
or the closed flag. -/
theorem wf_put {T : Type} {s : RingBuffer T} {input : List T} {n : Nat}
    {s' : RingBuffer T} (hw : s.Wf) (h : s.put input = .ok (n, s')) :
    s'.Wf ∧ s'.capacity = s.capacity ∧ s'.closed = s.closed ∧
      s'.read_pos = s.read_pos ∧
      n ≤ s.available_to_write ∧ n ≤ input.length ∧
      s'.available_to_read = s.available_to_read + n ∧
      s'.available_to_write = s.available_to_write - n := by
  obtain ⟨hbuf, hsum, hpos, hzero⟩ := hw
  by_cases hcl : s.closed
  · rw [put, if_pos hcl] at h
    exact absurd h (by simp)
  · by_cases hav : s.available_to_write = 0
    · rw [put, if_neg hcl, if_pos hav] at h
      simp only [Except.ok.injEq, Prod.mk.injEq] at h
      obtain ⟨hn, hs⟩ := h
      subst hs
      refine ⟨⟨hbuf, hsum, hpos, hzero⟩, rfl, rfl, rfl, ?_⟩
      omega
    · have hcap : 0 < s.capacity := by
        by_contra hc
        have : s.capacity = 0 := by omega
        omega
      obtain ⟨hwp, hrp, hwr⟩ := hpos hcap
      rw [put_ok s input hbuf hwp (by simpa using hcl)] at h
      simp only [Except.ok.injEq, Prod.mk.injEq] at h
      obtain ⟨hn, hs⟩ := h
      subst hs
      subst hn
      set L := min (min (s.capacity - s.write_pos) s.available_to_write) input.length with hL
      have hLa : L ≤ s.available_to_write := by omega
      have hLl : L ≤ input.length := by omega
      have hLd : L ≤ s.capacity - s.write_pos := by omega
      refine ⟨⟨?_, ?_, ?_, ?_⟩, rfl, rfl, rfl, hLa, hLl, rfl, rfl⟩
      · show (writeSlice s.buffer s.write_pos (List.take L input)).length = s.capacity
        rw [writeSlice_length]
        · exact hbuf
        · rw [hbuf, List.length_take]
          omega
      · show s.available_to_write - L + (s.available_to_read + L) = s.capacity
        omega
      · intro _
        refine ⟨Nat.mod_lt _ hcap, hrp, ?_⟩
        show (s.write_pos + L) % s.capacity =
          (s.read_pos + (s.available_to_read + L)) % s.capacity
        rw [hwr, Nat.mod_add_mod]
        congr 1
        omega
      · intro hc
        have hc' : s.capacity = 0 := hc
        omega

/-- `get` preserves well-formedness, returns a count bounded by the filled
slots and the output length, and does not change capacity, the storage, the
write cursor, or the closed flag.  A successful `get` also implies the
capacity is positive (on capacity 0 the final `% capacity` aborts). -/
theorem wf_get {T : Type} {s : RingBuffer T} {output : List T} {n : Nat}
    {out' : List T} {s' : RingBuffer T} (hw : s.Wf)
    (h : s.get output = .ok (n, out', s')) :
    s'.Wf ∧ 0 < s.capacity ∧ s'.capacity = s.capacity ∧ s'.closed = s.closed ∧
      s'.write_pos = s.write_pos ∧ s'.buffer = s.buffer ∧
      n ≤ s.available_to_read ∧ n ≤ output.length ∧
      s'.available_to_read = s.available_to_read - n ∧
      s'.available_to_write = s.available_to_write + n := by
  obtain ⟨hbuf, hsum, hpos, hzero⟩ := hw
  by_cases hcap : s.capacity = 0
  · exfalso
    obtain ⟨hwz, hrz⟩ := hzero hcap
    rw [get, if_pos (by omega), if_pos (by omega), if_neg (by omega)] at h
    exact absurd h (by simp)
  · have hcap' : 0 < s.capacity := by omega
    obtain ⟨hwp, hrp, hwr⟩ := hpos hcap'
    rw [get_ok s output hbuf hrp] at h
    simp only [Except.ok.injEq, Prod.mk.injEq] at h
    obtain ⟨hn, hout, hs⟩ := h
    subst hs
    subst hn
    subst hout
    set L := min (min (s.capacity - s.read_pos) s.available_to_read) output.length with hL
    have hLa : L ≤ s.available_to_read := by omega
    have hLl : L ≤ output.length := by omega
    refine ⟨⟨hbuf, ?_, ?_, ?_⟩, hcap', rfl, rfl, rfl, rfl, hLa, hLl, rfl, rfl⟩
    · show s.available_to_write + L + (s.available_to_read - L) = s.capacity
      omega
    · intro _
      refine ⟨hwp, Nat.mod_lt _ hcap', ?_⟩
      show s.write_pos = ((s.read_pos + L) % s.capacity +
        (s.available_to_read - L)) % s.capacity
      rw [Nat.mod_add_mod, hwr]
      congr 1
      omega
    · intro hc
      have hc' : s.capacity = 0 := hc
      omega

/-- `close` only flips the closed flag; everything else, including
well-formedness, is untouched. -/
theorem wf_close {T : Type} {s : RingBuffer T} (hw : s.Wf) :
    s.close.Wf ∧ s.close.capacity = s.capacity ∧ s.close.closed = true := by
  obtain ⟨hbuf, hsum, hpos, hzero⟩ := hw
  exact ⟨⟨hbuf, hsum, hpos, hzero⟩, rfl, rfl⟩

/-- A single successful call preserves well-formedness and the capacity. -/
theorem wf_step {T : Type} {s : RingBuffer T} {op : Op T} {s' : RingBuffer T}
    (hw : s.Wf) (h : s.step op = .ok s') :
    s'.Wf ∧ s'.capacity = s.capacity := by
  cases op with
  | put input =>
    rw [step] at h
    cases hput : s.put input with
    | error e => rw [hput] at h; exact absurd h (by simp [Except.map])
    | ok r =>
      rw [hput] at h
      simp only [Except.map, Except.ok.injEq] at h
      subst h
      obtain ⟨h1, h2, _⟩ := wf_put hw (by rw [hput])
      exact ⟨h1, h2⟩
  | get output =>
    rw [step] at h
    cases hget : s.get output with
    | error e => rw [hget] at h; exact absurd h (by simp [Except.map])
    | ok r =>
      rw [hget] at h
      simp only [Except.map, Except.ok.injEq] at h
      subst h
      obtain ⟨h1, _, h2, _⟩ := wf_get hw (by rw [hget])
      exact ⟨h1, h2⟩
  | close =>
    rw [step] at h
    simp only [Except.ok.injEq] at h
    subst h
    obtain ⟨h1, h2, _⟩ := wf_close hw
    exact ⟨h1, h2⟩

/-- A whole successful run preserves well-formedness and the capacity. -/
theorem wf_run {T : Type} {s : RingBuffer T} {ops : List (Op T)}
    {s' : RingBuffer T} (hw : s.Wf) (h : s.run ops = .ok s') :
    s'.Wf ∧ s'.capacity = s.capacity := by
  induction ops generalizing s with
  | nil =>
    rw [run] at h
    simp only [Except.ok.injEq] at h
    subst h
    exact ⟨hw, rfl⟩
  | cons op ops ih =>
    rw [run] at h
    cases hstep : s.step op with
    | error e => rw [hstep] at h; exact absurd h (by simp [Except.bind])
    | ok s1 =>
      rw [hstep] at h
      simp only [Except.bind] at h
      obtain ⟨h1, h2⟩ := wf_step hw hstep
      obtain ⟨h3, h4⟩ := ih h1 h
      exact ⟨h3, by omega⟩

/-- The freshly constructed buffer is well-formed whenever the junk list
used to model the uninitialised storage has the right length. -/
theorem wf_new {T : Type} (size : Nat) (junk : List T) (hj : junk.length = size) :
    (new size junk).Wf := by
  refine ⟨hj, rfl, ?_, ?_⟩
  · intro hcap
    exact ⟨hcap, hcap, (Nat.zero_mod size).symm⟩
  · intro hcap
    exact ⟨rfl, rfl⟩

end RingBuffer

theorem ext_getD {T : Type} (l1 l2 : List T) (d : T) (hlen : l1.length = l2.length)
    (h : ∀ i, i < l1.length → l1.getD i d = l2.getD i d) : l1 = l2 := by
  apply List.ext_getElem hlen
  intro i h1 h2
  have hh := h i h1
  rwa [List.getD_eq_getElem _ d h1, List.getD_eq_getElem _ d h2] at hh

theorem getD_append_left {T : Type} (l1 l2 : List T) (i : Nat) (d : T)
    (hi : i < l1.length) : (l1 ++ l2).getD i d = l1.getD i d := by
  rw [List.getD_eq_getElem?_getD, List.getD_eq_getElem?_getD,
    List.getElem?_append, if_pos hi]

theorem getD_append_right {T : Type} (l1 l2 : List T) (i : Nat) (d : T)
    (hi : l1.length ≤ i) : (l1 ++ l2).getD i d = l2.getD (i - l1.length) d := by
  rw [List.getD_eq_getElem?_getD, List.getD_eq_getElem?_getD,
    List.getElem?_append_right hi]

theorem getD_take {T : Type} (l : List T) (n i : Nat) (d : T) (hi : i < n) :
    (l.take n).getD i d = l.getD i d := by
  rw [List.getD_eq_getElem?_getD, List.getD_eq_getElem?_getD,
    List.getElem?_take, if_pos hi]

theorem getD_drop {T : Type} (l : List T) (n i : Nat) (d : T) :
    (l.drop n).getD i d = l.getD (n + i) d := by
  rw [List.getD_eq_getElem?_getD, List.getD_eq_getElem?_getD, List.getElem?_drop]

namespace RingBuffer

theorem absQ_length {T : Type} (s : RingBuffer T) (d : T) :
    (s.absQ d).length = s.available_to_read := by
  rw [absQ, List.length_map, List.length_range]

theorem absQ_getD {T : Type} (s : RingBuffer T) (d : T) (i : Nat)
    (hi : i < s.available_to_read) :
    (s.absQ d).getD i d = s.buffer.getD ((s.read_pos + i) % s.capacity) d := by
  rw [absQ, List.getD_eq_getElem?_getD, List.getElem?_map, List.getElem?_range hi]
  rfl

/-- A successful `put` appends exactly the accepted prefix of the input to
the abstract queue contents. -/
theorem absQ_put {T : Type} {s : RingBuffer T} {input : List T} {n : Nat}
    {s' : RingBuffer T} (d : T) (hw : s.Wf) (h : s.put input = .ok (n, s')) :
    s'.absQ d = s.absQ d ++ input.take n := by
  obtain ⟨hbuf, hsum, hpos, hzero⟩ := hw
  by_cases hcl : s.closed
  · rw [put, if_pos hcl] at h
    exact absurd h (by simp)
  · by_cases hav : s.available_to_write = 0
    · rw [put, if_neg hcl, if_pos hav] at h
      simp only [Except.ok.injEq, Prod.mk.injEq] at h
      obtain ⟨hn, hs⟩ := h
      subst hs
      rw [← hn, List.take_zero, List.append_nil]
    · have hcap : 0 < s.capacity := by omega
      obtain ⟨hwp, hrp, hwr⟩ := hpos hcap
      rw [put_ok s input hbuf hwp (by simpa using hcl)] at h
      simp only [Except.ok.injEq, Prod.mk.injEq] at h
      obtain ⟨hn, hs⟩ := h
      subst hs
      subst hn
      set L := min (min (s.capacity - s.write_pos) s.available_to_write) input.length with hL
      have hLa : L ≤ s.available_to_write := by omega
      have hLl : L ≤ input.length := by omega
      have hLd : L ≤ s.capacity - s.write_pos := by omega
      have hsrc : (List.take L input).length = L := by
        rw [List.length_take]; omega
      have hws : s.write_pos + (List.take L input).length ≤ s.buffer.length := by
        rw [hsrc, hbuf]; omega
      apply ext_getD _ _ d
      · rw [absQ_length, List.length_append, absQ_length, hsrc]
      · intro i hi
        rw [absQ_length] at hi
        have hi' : i < s.available_to_read + L := hi
        rw [absQ_getD _ d i hi']
        show (writeSlice s.buffer s.write_pos (List.take L input)).getD
          ((s.read_pos + i) % s.capacity) d = _
        by_cases hio : i < s.available_to_read
        · rw [writeSlice_getD_outside _ _ _ hws _ d ?side,
            getD_append_left _ _ _ _ (by rw [absQ_length]; exact hio),
            absQ_getD s d i hio]
          case side =>
            have hdis := ring_old_slot_not_written (r := s.read_pos)
              (a := s.available_to_read) (n := L) hrp (by omega) hio
            rw [← hwr] at hdis
            rw [hsrc]
            exact hdis
        · have hj : i - s.available_to_read < L := by omega
          have hidx : (s.read_pos + i) % s.capacity =
              s.write_pos + (i - s.available_to_read) := by
            have := @ring_new_slot_index s.capacity s.read_pos
              s.available_to_read L (i - s.available_to_read)
              (by rw [← hwr]; omega) hj
            rw [← hwr] at this
            rw [← this]
            congr 1
            omega
          rw [hidx, writeSlice_getD_inside _ _ _ hws _ d (by omega)
              (by rw [hsrc]; omega),
            getD_append_right _ _ _ _ (by rw [absQ_length]; omega), absQ_length]
          congr 1
          omega

/-- A successful `get` removes exactly the first `n` items of the abstract
queue contents and copies them to the front of the output slice. -/
theorem absQ_get {T : Type} {s : RingBuffer T} {output : List T} {n : Nat}
    {out' : List T} {s' : RingBuffer T} (d : T) (hw : s.Wf)
    (h : s.get output = .ok (n, out', s')) :
    s'.absQ d = (s.absQ d).drop n ∧
      (s.buffer.drop s.read_pos).take n = (s.absQ d).take n ∧
      out' = (s.absQ d).take n ++ output.drop n := by
  obtain ⟨hbuf, hsum, hpos, hzero⟩ := hw
  by_cases hcap : s.capacity = 0
  · exfalso
    obtain ⟨hwz, hrz⟩ := hzero hcap
    rw [get, if_pos (by omega), if_pos (by omega), if_neg (by omega)] at h
    exact absurd h (by simp)
  · have hcap' : 0 < s.capacity := by omega
    obtain ⟨hwp, hrp, hwr⟩ := hpos hcap'
    rw [get_ok s output hbuf hrp] at h
    simp only [Except.ok.injEq, Prod.mk.injEq] at h
    obtain ⟨hn, hout, hs⟩ := h
    subst hs
    subst hn
    subst hout
    set L := min (min (s.capacity - s.read_pos) s.available_to_read) output.length with hL
    have hLa : L ≤ s.available_to_read := by omega
    have hLd : L ≤ s.capacity - s.read_pos := by omega
    have hfetch : (s.buffer.drop s.read_pos).take L = (s.absQ d).take L := by
      apply ext_getD _ _ d
      · rw [List.length_take, List.length_take, List.length_drop, absQ_length,
          hbuf]
        omega
      · intro i hi
        rw [List.length_take, List.length_drop, hbuf] at hi
        have hiL : i < L := by omega
        rw [getD_take _ _ _ _ hiL, getD_take _ _ _ _ hiL, getD_drop,
          absQ_getD s d i (by omega), Nat.mod_eq_of_lt (by omega)]
    refine ⟨?_, hfetch, ?_⟩
    · apply ext_getD _ _ d
      · rw [absQ_length, List.length_drop, absQ_length]
      · intro i hi
        rw [absQ_length] at hi
        have hi' : i < s.available_to_read - L := hi
        rw [absQ_getD _ d i hi', getD_drop, absQ_getD s d (L + i) (by omega)]
        show s.buffer.getD (((s.read_pos + L) % s.capacity + i) % s.capacity) d = _
        rw [Nat.mod_add_mod]
        congr 2
        omega
    · rw [hfetch]

end RingBuffer

example :
    (RingBuffer.new 10 (List.replicate 10 0)).put [1, 2, 3] =
      .ok (3, { capacity := 10, buffer := [1, 2, 3, 0, 0, 0, 0, 0, 0, 0],
                write_pos := 3, available_to_write := 7,
                read_pos := 0, available_to_read := 3, closed := false }) := rfl

example :
    ((RingBuffer.new 3 ([9, 9, 9] : List Nat)).put [1, 2, 3, 4]).map
      (fun p => p.1) = .ok 3 := rfl

example :
    (RingBuffer.get (T := Nat)
      { capacity := 3, buffer := [1, 2, 3], write_pos := 0,
        available_to_write := 0, read_pos := 0, available_to_read := 3,
        closed := false } [7, 7]) =
      .ok (2, [1, 2],
        { capacity := 3, buffer := [1, 2, 3], write_pos := 0,
          available_to_write := 2, read_pos := 2, available_to_read := 1,
          closed := false }) := rfl

example :
    ∃ e, RingBuffer.get (RingBuffer.new 0 ([] : List Nat)) [7] = .error e := by
  exact ⟨_, rfl⟩

open RingBuffer in
/-- C1: on an open ring buffer with positive capacity (valid cursor, storage
of the right length), `put` succeeds, returns exactly
`min(capacity - write_pos, available_to_write, input.length)`, copies that
many leading input items into storage starting at `write_pos` leaving all
other slots untouched, and that count is 0 whenever the buffer is full or
the input is empty. -/
theorem claim_C1 {T : Type} (s : RingBuffer T) (input : List T) (d : T)
    (hcl : s.closed = false) (hcap : 0 < s.capacity)
    (hbuf : s.buffer.length = s.capacity) (hwp : s.write_pos < s.capacity) :
    ∃ s', s.put input =
        .ok (min (min (s.capacity - s.write_pos) s.available_to_write)
          input.length, s') ∧
      s'.buffer.length = s.buffer.length ∧
      (∀ i, i < s.buffer.length →
        s'.buffer.getD i d =
          if s.write_pos ≤ i ∧
              i < s.write_pos +
                min (min (s.capacity - s.write_pos) s.available_to_write)
                  input.length
          then input.getD (i - s.write_pos) d
          else s.buffer.getD i d) ∧
      ((s.available_to_write = 0 ∨ input = []) →
        min (min (s.capacity - s.write_pos) s.available_to_write)
          input.length = 0) := by
  set L := min (min (s.capacity - s.write_pos) s.available_to_write)
    input.length with hL
  have hLd : L ≤ s.capacity - s.write_pos := by omega
  have hLl : L ≤ input.length := by omega
  have hsrc : (List.take L input).length = L := by rw [List.length_take]; omega
  have hws : s.write_pos + (List.take L input).length ≤ s.buffer.length := by
    rw [hsrc, hbuf]; omega
  refine ⟨_, put_ok s input hbuf hwp hcl, ?_, ?_, ?_⟩
  · show (writeSlice s.buffer s.write_pos (List.take L input)).length =
      s.buffer.length
    exact writeSlice_length _ _ _ hws
  · intro i hi
    show (writeSlice s.buffer s.write_pos (List.take L input)).getD i d = _
    by_cases hin : s.write_pos ≤ i ∧ i < s.write_pos + L
    · rw [if_pos hin,
        writeSlice_getD_inside _ _ _ hws i d hin.1 (by rw [hsrc]; omega),
        getD_take _ _ _ _ (by omega)]
    · rw [if_neg hin,
        writeSlice_getD_outside _ _ _ hws i d (by rw [hsrc]; omega)]
  · intro h0
    rcases h0 with h0 | h0
    · omega
    · have hi0 : input.length = 0 := by rw [h0]; rfl
      omega

/-- C1 witness: the spec's wrap-boundary case — capacity 10, write cursor at
8, 5 free slots, a put of 5 items accepts exactly 2. -/
theorem claim_C1_w : ∃ s', wrapState.put [1, 2, 3, 4, 5] = .ok (2, s') := by
  obtain ⟨s', h1, _⟩ :=
    claim_C1 wrapState [1, 2, 3, 4, 5] 0 rfl (by decide) rfl (by decide)
  exact ⟨s', h1⟩

open RingBuffer in
/-- C2: on a ring buffer with positive capacity (valid read cursor, storage
of the right length) and any value of `closed`, `get` succeeds, returns
`min(capacity - read_pos, available_to_read, output.length)` items copied
out of storage starting at `read_pos` into the front of the output slice
(the rest of the slice is untouched), advances `read_pos` modulo capacity
by that count, decrements `available_to_read` and increments
`available_to_write` by it, and fetches 0 items when the buffer is empty. -/
theorem claim_C2 {T : Type} (s : RingBuffer T) (output : List T) (d : T)
    (hcap : 0 < s.capacity) (hbuf : s.buffer.length = s.capacity)
    (hrp : s.read_pos < s.capacity) :
    ∃ n out' s',
      n = min (min (s.capacity - s.read_pos) s.available_to_read)
        output.length ∧
      s.get output = .ok (n, out', s') ∧
      out'.length = output.length ∧
      (∀ i, i < n → out'.getD i d = s.buffer.getD (s.read_pos + i) d) ∧
      (∀ i, n ≤ i → out'.getD i d = output.getD i d) ∧
      s'.read_pos = (s.read_pos + n) % s.capacity ∧
      s'.available_to_read = s.available_to_read - n ∧
      s'.available_to_write = s.available_to_write + n ∧
      s'.closed = s.closed ∧ s'.buffer = s.buffer ∧
      s'.capacity = s.capacity ∧ s'.write_pos = s.write_pos ∧
      (s.available_to_read = 0 → n = 0) := by
  set L := min (min (s.capacity - s.read_pos) s.available_to_read)
    output.length with hL
  have hLr : L ≤ s.capacity - s.read_pos := by omega
  have hLo : L ≤ output.length := by omega
  have hfet : ((s.buffer.drop s.read_pos).take L).length = L := by
    rw [List.length_take, List.length_drop, hbuf]; omega
  refine ⟨L, _, _, rfl, get_ok s output hbuf hrp, ?_, ?_, ?_, rfl, rfl, rfl,
    rfl, rfl, rfl, rfl, ?_⟩
  · rw [List.length_append, hfet, List.length_drop]; omega
  · intro i hi
    rw [getD_append_left _ _ _ _ (by rw [hfet]; omega),
      getD_take _ _ _ _ hi, getD_drop]
  · intro i hi
    rw [getD_append_right _ _ _ _ (by rw [hfet]; omega), hfet, getD_drop]
    congr 1
    omega
  · intro h0
    omega

/-- C2 witness: the closed buffer `closedState` (capacity 4, one unread
item) still serves a `get` of up to 3 items, returning exactly 1. -/
theorem claim_C2_w :
    ∃ n out' s', n = 1 ∧ closedState.get [0, 0, 0] = .ok (n, out', s') := by
  obtain ⟨n, out', s', hn, hok, _⟩ :=
    claim_C2 closedState [0, 0, 0] 0 (by decide) rfl (by decide)
  exact ⟨n, out', s', hn, hok⟩

/-- C4: for a buffer freshly constructed with capacity `c` and any sequence
of put/get/close calls that completes without aborting,
`available_to_write + available_to_read = c` holds at the end — and hence
before and after every operation, each prefix being such a sequence. -/
theorem claim_C4 {T : Type} (c : Nat) (junk : List T) (ops : List (Op T))
    (s' : RingBuffer T) (hj : junk.length = c)
    (h : (RingBuffer.new c junk).run ops = .ok s') :
    s'.available_to_write + s'.available_to_read = c := by
  obtain ⟨⟨_, hsum, _, _⟩, hcap⟩ :=
    RingBuffer.wf_run (RingBuffer.wf_new c junk hj) h
  have hc : (RingBuffer.new c junk).capacity = c := rfl
  omega

/-- C4 witness: a concrete run (put, get, close) on capacity 2 ends with
1 free slot and 1 filled slot. -/
theorem claim_C4_w : 1 + 1 = 2 := by
  have h : (RingBuffer.new 2 [7, 7]).run [.put [1, 2, 3], .get [0], .close] =
      .ok ⟨2, [1, 2], 0, 1, 1, 1, true⟩ := rfl
  exact claim_C4 2 [7, 7] [.put [1, 2, 3], .get [0], .close]
    ⟨2, [1, 2], 0, 1, 1, 1, true⟩ rfl h

open RingBuffer in
/-- C5: once a buffer is closed, any `put` (with any input, regardless of
free space) aborts with the closed-write message; a second `close` is a
no-op; `get` still succeeds, leaves the flag set, and keeps returning items
while `available_to_read > 0` (so the flag is never reset by any
operation). -/
theorem claim_C5 {T : Type} (s : RingBuffer T) (input output : List T)
    (hcl : s.closed = true) (hcap : 0 < s.capacity)
    (hbuf : s.buffer.length = s.capacity) (hrp : s.read_pos < s.capacity) :
    s.put input = .error "Cannot write to closed buffer." ∧
    s.close = s ∧
    (∃ n out' s', s.get output = .ok (n, out', s') ∧ s'.closed = true ∧
      n = min (min (s.capacity - s.read_pos) s.available_to_read)
        output.length ∧
      (0 < s.available_to_read → output ≠ [] → 0 < n)) := by
  refine ⟨?_, ?_, ?_⟩
  · rw [put, if_pos hcl]
  · cases s
    simp only [close, mk.injEq, and_true, true_and]
    simp_all
  · refine ⟨_, _, _, get_ok s output hbuf hrp, hcl, rfl, ?_⟩
    intro har hout
    have : output.length ≠ 0 := by
      intro hlen
      exact hout (List.eq_nil_of_length_eq_zero hlen)
    omega

/-- C5 witness: on the concrete closed buffer, `put` aborts and a second
`close` changes nothing. -/
theorem claim_C5_w :
    closedState.put [1] = .error "Cannot write to closed buffer." ∧
    closedState.close = closedState := by
  obtain ⟨h1, h2, _⟩ := claim_C5 closedState [1] [0] rfl (by decide) rfl
    (by decide)
  exact ⟨h1, h2⟩

open RingBuffer in
/-- C6: on an open buffer with positive capacity (valid cursor, storage of
the right length), a `put` when `available_to_write = 0` returns 0 and
leaves the state completely unchanged, and a `get` when
`available_to_read = 0` fetches 0 items, leaves the output slice unchanged,
and leaves the state completely unchanged. -/
theorem claim_C6 {T : Type} (s : RingBuffer T) (input output : List T)
    (hcl : s.closed = false) (hcap : 0 < s.capacity)
    (hbuf : s.buffer.length = s.capacity) (hrp : s.read_pos < s.capacity) :
    (s.available_to_write = 0 → s.put input = .ok (0, s)) ∧
    (s.available_to_read = 0 → s.get output = .ok (0, output, s)) := by
  constructor
  · intro h0
    rw [put, if_neg (by rw [hcl]; simp), if_pos h0]
  · intro h0
    rw [get_ok s output hbuf hrp]
    have hmin : min (min (s.capacity - s.read_pos) s.available_to_read)
        output.length = 0 := by omega
    rw [hmin]
    simp only [List.take_zero, List.drop_zero, List.nil_append,
      Nat.sub_zero, Nat.add_zero, Nat.mod_eq_of_lt hrp]

/-- C6 witness: a put of one item on the concrete full buffer returns 0 and
returns the state unchanged. -/
theorem claim_C6_w : fullState.put [9] = .ok (0, fullState) :=
  (claim_C6 fullState [9] [0] rfl (by decide) rfl (by decide)).1 rfl

/-- C8: for a buffer freshly constructed with positive capacity `c` and any
sequence of put/get/close calls that completes without aborting, the
cursors remain valid indices (`write_pos < c`, `read_pos < c`) and both
availability counters stay at most `c`. -/
theorem claim_C8 {T : Type} (c : Nat) (junk : List T) (ops : List (Op T))
    (s' : RingBuffer T) (hc : 0 < c) (hj : junk.length = c)
    (h : (RingBuffer.new c junk).run ops = .ok s') :
    s'.write_pos < c ∧ s'.read_pos < c ∧
      s'.available_to_write ≤ c ∧ s'.available_to_read ≤ c := by
  obtain ⟨⟨_, hsum, hpos, _⟩, hcap⟩ :=
    RingBuffer.wf_run (RingBuffer.wf_new c junk hj) h
  have hc' : (RingBuffer.new c junk).capacity = c := rfl
  obtain ⟨hw, hr, _⟩ := hpos (by omega)
  refine ⟨by omega, by omega, by omega, by omega⟩

/-- C8 witness: after a wrapping put/get/put run on capacity 2, both
cursors are inside `[0, 2)` and both counters are at most 2. -/
theorem claim_C8_w : 1 < 2 ∧ 0 < 2 ∧ 1 ≤ 2 ∧ 1 ≤ 2 := by
  have h : (RingBuffer.new 2 [7, 7]).run
      [.put [1, 2, 3], .get [0, 0], .put [3]] =
      .ok ⟨2, [3, 2], 1, 1, 0, 1, false⟩ := rfl
  exact claim_C8 2 [7, 7] [.put [1, 2, 3], .get [0, 0], .put [3]]
    ⟨2, [3, 2], 1, 1, 0, 1, false⟩ (by decide) rfl h

open RingBuffer in
/-- C9: on a buffer constructed with capacity 0, `put` does not abort (the
`available_to_write == 0` early return fires before any `%`) while any
`get` aborts on `% 0`; for positive capacity, any state reached by a run of
successful calls serves `put` (while open) and `get` without aborting. -/
theorem claim_C9 {T : Type} (junk0 : List T) (input output : List T)
    (c : Nat) (junk : List T) (ops : List (Op T)) (s' : RingBuffer T)
    (hc : 0 < c) (hj : junk.length = c)
    (h : (RingBuffer.new c junk).run ops = .ok s') :
    (RingBuffer.new 0 junk0).put input = .ok (0, RingBuffer.new 0 junk0) ∧
    (∃ e, (RingBuffer.new 0 junk0).get output = .error e) ∧
    (s'.closed = false → ∃ r, s'.put input = .ok r) ∧
    (∃ r, s'.get output = .ok r) := by
  obtain ⟨⟨hbuf, hsum, hpos, _⟩, hcap⟩ := wf_run (wf_new c junk hj) h
  have hc' : (RingBuffer.new c junk).capacity = c := rfl
  obtain ⟨hw, hr, _⟩ := hpos (by omega)
  refine ⟨?_, ?_, ?_, ?_⟩
  · rw [put]
    simp [new]
  · refine ⟨"attempt to calculate the remainder with a divisor of zero", ?_⟩
    rw [RingBuffer.get]
    simp [new]
  · intro hop
    exact ⟨_, put_ok s' input hbuf hw hop⟩
  · exact ⟨_, get_ok s' output hbuf hr⟩

/-- C9 witness: with capacity 0, a put of one item is accepted as a no-op
returning 0, and a get of one item aborts. -/
theorem claim_C9_w :
    (RingBuffer.new 0 ([] : List Nat)).put [1] =
      .ok (0, RingBuffer.new 0 []) ∧
    (∃ e, (RingBuffer.new 0 ([] : List Nat)).get [0] = .error e) := by
  obtain ⟨h1, h2, _, _⟩ :=
    claim_C9 ([] : List Nat) [1] [0] 1 [5] [] (RingBuffer.new 1 [5])
      (by decide) rfl rfl
  exact ⟨h1, h2⟩

/-- One relay step never loses or duplicates data: the concatenation
`out ++ queue ++ pending` is left exactly as it was, and well-formedness
and positive capacity are preserved. -/
theorem relay_step_inv {T : Type} [Inhabited T] {st st' : RelayState T}
    {op : RelayOp T} (hw : st.buf.Wf) (hcap : 0 < st.buf.capacity)
    (h : relayStep st op = .ok st') :
    st'.buf.Wf ∧ 0 < st'.buf.capacity ∧
      st'.out ++ st'.buf.absQ default ++ st'.pending =
        st.out ++ st.buf.absQ default ++ st.pending := by
  cases op with
  | prod =>
    rw [relayStep] at h
    cases hput : st.buf.put st.pending with
    | error e => rw [hput] at h; exact absurd h (by simp [Except.map])
    | ok r =>
      obtain ⟨n, buf'⟩ := r
      rw [hput] at h
      simp only [Except.map, Except.ok.injEq] at h
      subst h
      obtain ⟨hw', hc', _, _, _, hnl, _⟩ := RingBuffer.wf_put hw hput
      have habs := RingBuffer.absQ_put (default : T) hw hput
      refine ⟨hw', lt_of_lt_of_eq hcap hc'.symm, ?_⟩
      show st.out ++ buf'.absQ default ++ st.pending.drop n = _
      rw [habs, ← List.append_assoc st.out,
        List.append_assoc (st.out ++ st.buf.absQ default),
        List.take_append_drop]
  | cons output =>
    rw [relayStep] at h
    cases hget : st.buf.get output with
    | error e => rw [hget] at h; exact absurd h (by simp [Except.map])
    | ok r =>
      obtain ⟨n, out', buf'⟩ := r
      rw [hget] at h
      simp only [Except.map, Except.ok.injEq] at h
      subst h
      obtain ⟨hw', _, hc', _, _, _, hna, _⟩ := RingBuffer.wf_get hw hget
      obtain ⟨habs', -, hout'⟩ := RingBuffer.absQ_get (default : T) hw hget
      refine ⟨hw', lt_of_lt_of_eq hcap hc'.symm, ?_⟩
      show st.out ++ out'.take n ++ buf'.absQ default ++ st.pending = _
      have htake : out'.take n = (st.buf.absQ default).take n := by
        rw [hout', List.take_append_eq_append_take, List.length_take,
          RingBuffer.absQ_length]
        have h1 : min n st.buf.available_to_read = n := by omega
        have h2 : n - min n st.buf.available_to_read = 0 := by omega
        rw [h2, List.take_zero, List.append_nil, List.take_take,
          Nat.min_self]
      rw [htake, habs', List.append_assoc st.out, List.take_append_drop]

/-- A whole relay run preserves the no-loss/no-duplication quantity. -/
theorem relay_run_inv {T : Type} [Inhabited T] {st st' : RelayState T}
    {ops : List (RelayOp T)} (hw : st.buf.Wf) (hcap : 0 < st.buf.capacity)
    (h : relayRun st ops = .ok st') :
    st'.buf.Wf ∧ 0 < st'.buf.capacity ∧
      st'.out ++ st'.buf.absQ default ++ st'.pending =
        st.out ++ st.buf.absQ default ++ st.pending := by
  induction ops generalizing st with
  | nil =>
    rw [relayRun] at h
    simp only [Except.ok.injEq] at h
    subst h
    exact ⟨hw, hcap, rfl⟩
  | cons op ops ih =>
    rw [relayRun] at h
    cases hstep : relayStep st op with
    | error e => rw [hstep] at h; exact absurd h (by simp [Except.bind])
    | ok st1 =>
      rw [hstep] at h
      simp only [Except.bind] at h
      obtain ⟨h1, h2, h3⟩ := relay_step_inv hw hcap hstep
      obtain ⟨h4, h5, h6⟩ := ih h1 h2 h
      exact ⟨h4, h5, h6.trans h3⟩

/-- C3: start a relay on a fresh buffer of positive capacity with `input`
as the producer's data; run any interleaving of producer puts (looping on
the remaining input) and consumer gets that completes without aborting.
If at the end the producer has pushed everything (`pending = []`) and the
consumer has drained the buffer (`available_to_read = 0`), the
concatenation of everything the gets returned is exactly `input`: same
items, same order, no loss, no duplication. -/
theorem claim_C3 {T : Type} [Inhabited T] (c : Nat) (junk input : List T)
    (ops : List (RelayOp T)) (st' : RelayState T)
    (hc : 0 < c) (hj : junk.length = c)
    (h : relayRun ⟨input, RingBuffer.new c junk, []⟩ ops = .ok st')
    (hpend : st'.pending = []) (hdr : st'.buf.available_to_read = 0) :
    st'.out = input := by
  obtain ⟨_, _, hq⟩ := relay_run_inv (RingBuffer.wf_new c junk hj) hc h
  have habs' : st'.buf.absQ (default : T) = [] := by
    rw [RingBuffer.absQ, hdr]
    rfl
  have habs0 : (RingBuffer.new c junk).absQ (default : T) = [] := rfl
  rw [hpend, habs', List.append_nil, List.append_nil] at hq
  rw [hq]
  show [] ++ _ ++ input = input
  rw [habs0]
  rfl

/-- C3 witness: input `[1, 2, 3]` pushed through a capacity-2 buffer with
the schedule put/get/put/get comes out as exactly `[1, 2, 3]`. -/
theorem claim_C3_w :
    RelayState.out (T := Nat) ⟨[], ⟨2, [3, 2], 1, 2, 1, 0, false⟩, [1, 2, 3]⟩ =
      [1, 2, 3] := by
  have h : relayRun (T := Nat) ⟨[1, 2, 3], RingBuffer.new 2 [9, 9], []⟩
      [.prod, .cons [0, 0], .prod, .cons [0, 0]] =
      .ok ⟨[], ⟨2, [3, 2], 1, 2, 1, 0, false⟩, [1, 2, 3]⟩ := rfl
  exact claim_C3 2 [9, 9] [1, 2, 3] [.prod, .cons [0, 0], .prod, .cons [0, 0]]
    ⟨[], ⟨2, [3, 2], 1, 2, 1, 0, false⟩, [1, 2, 3]⟩ (by decide) rfl h rfl rfl

/-- `put` acts identically on two buffers that differ only in junk slots:
it aborts on both or succeeds on both with the same count, and the results
again differ only in junk slots. -/
theorem equiv_put {a b : RingBuffer Nat} (input : List Nat)
    (h : EquivUpToJunk a b) (hwa : a.Wf) (hwb : b.Wf) :
    (a.put input = .error "Cannot write to closed buffer." ∧
      b.put input = .error "Cannot write to closed buffer.") ∨
    (∃ n t1 t2, a.put input = .ok (n, t1) ∧ b.put input = .ok (n, t2) ∧
      EquivUpToJunk t1 t2 ∧ t1.Wf ∧ t2.Wf) := by
  obtain ⟨hc, hwp, hrp, haw, har, hcl, hlen, habs⟩ := h
  by_cases hclosed : a.closed
  · left
    constructor
    · rw [RingBuffer.put, if_pos hclosed]
    · rw [RingBuffer.put, if_pos (show b.closed = true by rw [← hcl]; exact hclosed)]
  · right
    by_cases hav : a.available_to_write = 0
    · refine ⟨0, a, b, ?_, ?_, ⟨hc, hwp, hrp, haw, har, hcl, hlen, habs⟩,
        hwa, hwb⟩
      · rw [RingBuffer.put, if_neg hclosed, if_pos hav]
      · rw [RingBuffer.put,
          if_neg (show ¬ b.closed = true by rw [← hcl]; exact hclosed),
          if_pos (show b.available_to_write = 0 by omega)]
    · have hcap : 0 < a.capacity := by
        obtain ⟨-, hsum, -, -⟩ := id hwa
        omega
      obtain ⟨hbufa, hsuma, hposa, -⟩ := id hwa
      obtain ⟨hwpa, hrpa, hwra⟩ := hposa hcap
      obtain ⟨hbufb, hsumb, hposb, -⟩ := id hwb
      obtain ⟨hwpb, hrpb, hwrb⟩ := hposb (by omega)
      have ha := RingBuffer.put_ok a input hbufa hwpa (by simpa using hclosed)
      have hb := RingBuffer.put_ok b input hbufb hwpb
        (by rw [← hcl]; simpa using hclosed)
      have hnb : min (min (b.capacity - b.write_pos) b.available_to_write)
          input.length =
          min (min (a.capacity - a.write_pos) a.available_to_write)
            input.length := by
        rw [hc, hwp, haw]
      rw [hnb] at hb
      set n := min (min (a.capacity - a.write_pos) a.available_to_write)
        input.length with hndef
      have hna : n ≤ a.capacity - a.write_pos := by omega
      refine ⟨n, _, _, ha, hb, ?_, (RingBuffer.wf_put hwa ha).1,
        (RingBuffer.wf_put hwb hb).1⟩
      have habsA := RingBuffer.absQ_put (0 : Nat) hwa ha
      have habsB := RingBuffer.absQ_put (0 : Nat) hwb hb
      refine ⟨hc, ?_, hrp, ?_, ?_, hcl, ?_, ?_⟩
      · show (a.write_pos + n) % a.capacity = (b.write_pos + n) % b.capacity
        rw [hc, hwp]
      · show a.available_to_write - n = b.available_to_write - n
        rw [haw]
      · show a.available_to_read + n = b.available_to_read + n
        rw [har]
      · show (writeSlice a.buffer a.write_pos (input.take n)).length =
          (writeSlice b.buffer b.write_pos (input.take n)).length
        rw [writeSlice_length _ _ _ (by rw [List.length_take, hbufa]; omega),
          writeSlice_length _ _ _
            (by rw [List.length_take, hbufb, ← hc, ← hwp]; omega), hlen]
      · show RingBuffer.absQ _ 0 = RingBuffer.absQ _ 0
        rw [habsA, habsB, habs]

/-- `get` acts identically on two buffers that differ only in junk slots:
it aborts on both or succeeds on both with the same count and the same
fetched items, and the results again differ only in junk slots. -/
theorem equiv_get {a b : RingBuffer Nat} (output : List Nat)
    (h : EquivUpToJunk a b) (hwa : a.Wf) (hwb : b.Wf) :
    (∃ e, a.get output = .error e ∧ b.get output = .error e) ∨
    (∃ n out' t1 t2, a.get output = .ok (n, out', t1) ∧
      b.get output = .ok (n, out', t2) ∧ EquivUpToJunk t1 t2 ∧
      t1.Wf ∧ t2.Wf) := by
  obtain ⟨hc, hwp, hrp, haw, har, hcl, hlen, habs⟩ := h
  by_cases hcap : a.capacity = 0
  · left
    obtain ⟨hbufa, hsuma, -, hza⟩ := id hwa
    obtain ⟨hw0a, hr0a⟩ := hza hcap
    obtain ⟨hbufb, hsumb, -, hzb⟩ := id hwb
    obtain ⟨hw0b, hr0b⟩ := hzb (by omega)
    have hara : a.available_to_read = 0 := by omega
    have harb : b.available_to_read = 0 := by omega
    refine ⟨"attempt to calculate the remainder with a divisor of zero",
      ?_, ?_⟩
    · rw [RingBuffer.get, hr0a, hcap, hara]
      simp
    · rw [RingBuffer.get, hr0b, (show b.capacity = 0 by omega), harb]
      simp
  · right
    have hcap' : 0 < a.capacity := by omega
    obtain ⟨hbufa, hsuma, hposa, -⟩ := id hwa
    obtain ⟨hwpa, hrpa, hwra⟩ := hposa hcap'
    obtain ⟨hbufb, hsumb, hposb, -⟩ := id hwb
    obtain ⟨hwpb, hrpb, hwrb⟩ := hposb (by omega)
    have ha := RingBuffer.get_ok a output hbufa hrpa
    have hb := RingBuffer.get_ok b output hbufb hrpb
    have hnb : min (min (b.capacity - b.read_pos) b.available_to_read)
        output.length =
        min (min (a.capacity - a.read_pos) a.available_to_read)
          output.length := by
      rw [hc, hrp, har]
    rw [hnb] at hb
    set n := min (min (a.capacity - a.read_pos) a.available_to_read)
      output.length with hndef
    have hfA := (RingBuffer.absQ_get (0 : Nat) hwa ha).2.1
    have hfB := (RingBuffer.absQ_get (0 : Nat) hwb hb).2.1
    have hout : (b.buffer.drop b.read_pos).take n =
        (a.buffer.drop a.read_pos).take n := by
      rw [hfA, hfB, habs]
    rw [hout] at hb
    refine ⟨n, _, _, _, ha, hb, ?_, (RingBuffer.wf_get hwa ha).1,
      (RingBuffer.wf_get hwb hb).1⟩
    have habsA := (RingBuffer.absQ_get (0 : Nat) hwa ha).1
    have habsB := (RingBuffer.absQ_get (0 : Nat) hwb hb).1
    refine ⟨hc, hwp, ?_, ?_, ?_, hcl, hlen, ?_⟩
    · show (a.read_pos + n) % a.capacity = (b.read_pos + n) % b.capacity
      rw [hc, hrp]
    · show a.available_to_write + n = b.available_to_write + n
      rw [haw]
    · show a.available_to_read - n = b.available_to_read - n
      rw [har]
    · show RingBuffer.absQ _ 0 = RingBuffer.absQ _ 0
      rw [habsA, habsB, habs]

/-- One public call (put/get/close/is_closed) is observationally identical
on two buffers that differ only in junk slots. -/
theorem equiv_stepObs {a b : RingBuffer Nat} (op : ObsOp)
    (h : EquivUpToJunk a b) (hwa : a.Wf) (hwb : b.Wf) :
    (∃ e, a.stepObs op = .error e ∧ b.stepObs op = .error e) ∨
    (∃ o t1 t2, a.stepObs op = .ok (o, t1) ∧ b.stepObs op = .ok (o, t2) ∧
      EquivUpToJunk t1 t2 ∧ t1.Wf ∧ t2.Wf) := by
  cases op with
  | put input =>
    rcases equiv_put input h hwa hwb with ⟨he1, he2⟩ |
      ⟨n, t1, t2, h1, h2, hrel, hw1, hw2⟩
    · left
      exact ⟨_, by rw [RingBuffer.stepObs, he1]; rfl,
        by rw [RingBuffer.stepObs, he2]; rfl⟩
    · right
      exact ⟨.wrote n, t1, t2, by rw [RingBuffer.stepObs, h1]; rfl,
        by rw [RingBuffer.stepObs, h2]; rfl, hrel, hw1, hw2⟩
  | get output =>
    rcases equiv_get output h hwa hwb with ⟨e, he1, he2⟩ |
      ⟨n, out', t1, t2, h1, h2, hrel, hw1, hw2⟩
    · left
      exact ⟨e, by rw [RingBuffer.stepObs, he1]; rfl,
        by rw [RingBuffer.stepObs, he2]; rfl⟩
    · right
      exact ⟨.fetched n out', t1, t2, by rw [RingBuffer.stepObs, h1]; rfl,
        by rw [RingBuffer.stepObs, h2]; rfl, hrel, hw1, hw2⟩
  | close =>
    right
    obtain ⟨hc, hwp, hrp, haw, har, hcl, hlen, habs⟩ := h
    exact ⟨.unit, a.close, b.close, rfl, rfl,
      ⟨hc, hwp, hrp, haw, har, rfl, hlen, habs⟩,
      (RingBuffer.wf_close hwa).1, (RingBuffer.wf_close hwb).1⟩
  | is_closed =>
    right
    obtain ⟨hc, hwp, hrp, haw, har, hcl, hlen, habs⟩ := h
    refine ⟨.flag a.is_closed, a, b, rfl, ?_,
      ⟨hc, hwp, hrp, haw, har, hcl, hlen, habs⟩, hwa, hwb⟩
    show Except.ok (Obs.flag b.is_closed, b) = Except.ok (Obs.flag a.is_closed, b)
    rw [show a.is_closed = b.is_closed from
      by rw [RingBuffer.is_closed, RingBuffer.is_closed, hcl]]

/-- A whole sequence of public calls is observationally identical on two
buffers that differ only in junk slots. -/
theorem equiv_runObs {a b : RingBuffer Nat} (ops : List ObsOp)
    (h : EquivUpToJunk a b) (hwa : a.Wf) (hwb : b.Wf) :
    (∃ e, a.runObs ops = .error e ∧ b.runObs ops = .error e) ∨
    (∃ os t1 t2, a.runObs ops = .ok (os, t1) ∧ b.runObs ops = .ok (os, t2) ∧
      EquivUpToJunk t1 t2) := by
  induction ops generalizing a b with
  | nil => exact Or.inr ⟨[], a, b, rfl, rfl, h⟩
  | cons op ops ih =>
    rcases equiv_stepObs op h hwa hwb with ⟨e, h1, h2⟩ |
      ⟨o, t1, t2, h1, h2, hrel, hw1, hw2⟩
    · left
      refine ⟨e, ?_, ?_⟩
      · rw [RingBuffer.runObs, h1]
        rfl
      · rw [RingBuffer.runObs, h2]
        rfl
    · rcases ih hrel hw1 hw2 with ⟨e, h3, h4⟩ | ⟨os, u1, u2, h3, h4, hrel2⟩
      · left
        refine ⟨e, ?_, ?_⟩
        · rw [RingBuffer.runObs, h1]
          show (t1.runObs ops).map _ = Except.error e
          rw [h3]
          rfl
        · rw [RingBuffer.runObs, h2]
          show (t2.runObs ops).map _ = Except.error e
          rw [h4]
          rfl
      · right
        refine ⟨o :: os, u1, u2, ?_, ?_, hrel2⟩
        · rw [RingBuffer.runObs, h1]
          show (t1.runObs ops).map _ = _
          rw [h3]
          rfl
        · rw [RingBuffer.runObs, h2]
          show (t2.runObs ops).map _ = _
          rw [h4]
          rfl

/-- The `main.rs` `put` is the generic `put` read through the field-for-field
reinterpretation. -/
theorem toGeneric_put (s : MainRingBuffer) (input : List Nat) :
    (s.put input).map (fun r => (r.1, r.2.toGeneric)) =
      s.toGeneric.put input := by
  simp only [MainRingBuffer.put, RingBuffer.put, MainRingBuffer.toGeneric]
  split_ifs <;> rfl

/-- The `main.rs` `get` is the generic `get` read through the field-for-field
reinterpretation. -/
theorem toGeneric_get (s : MainRingBuffer) (output : List Nat) :
    (s.get output).map (fun r => (r.1, r.2.1, r.2.2.toGeneric)) =
      s.toGeneric.get output := by
  simp only [MainRingBuffer.get, RingBuffer.get, MainRingBuffer.toGeneric]
  split_ifs <;> rfl

theorem toGeneric_stepObs (s : MainRingBuffer) (op : ObsOp) :
    (s.stepObs op).map (fun r => (r.1, r.2.toGeneric)) =
      s.toGeneric.stepObs op := by
  cases op with
  | put input =>
    rw [MainRingBuffer.stepObs, RingBuffer.stepObs, ← toGeneric_put]
    cases s.put input <;> rfl
  | get output =>
    rw [MainRingBuffer.stepObs, RingBuffer.stepObs, ← toGeneric_get]
    cases s.get output <;> rfl
  | close => rfl
  | is_closed => rfl

theorem toGeneric_runObs (s : MainRingBuffer) (ops : List ObsOp) :
    (s.runObs ops).map (fun r => (r.1, r.2.toGeneric)) =
      s.toGeneric.runObs ops := by
  induction ops generalizing s with
  | nil => rfl
  | cons op ops ih =>
    rw [MainRingBuffer.runObs, RingBuffer.runObs, ← toGeneric_stepObs]
    cases hstep : s.stepObs op with
    | error e => rfl
    | ok r =>
      show ((r.2.runObs ops).map _).map _ = ((r.2.toGeneric).runObs ops).map _
      rw [← ih r.2]
      cases r.2.runObs ops <;> rfl

/-- C10: the non-generic `RingBuffer` of `main.rs` and the generic
`RingBuffer<T>` of `ringbuffer.rs` at `T = u8` are behaviourally identical:
for every capacity and every sequence of put/get/close/is_closed calls,
both runs produce the same observations (counts written, items fetched,
flags, and aborts with the same messages), and when both succeed the final
states agree on every field and on every filled storage slot — the only
possible difference being the unobservable contents of unfilled slots,
zero-initialised by one constructor and uninitialised in the other. -/
theorem claim_C10 (c : Nat) (junk : List Nat) (ops : List ObsOp)
    (hj : junk.length = c) :
    ((MainRingBuffer.new c).runObs ops).map (fun r => r.1) =
      ((RingBuffer.new c junk).runObs ops).map (fun r => r.1) ∧
    (∀ o1 t1 o2 t2, (MainRingBuffer.new c).runObs ops = .ok (o1, t1) →
      (RingBuffer.new c junk).runObs ops = .ok (o2, t2) →
      o1 = o2 ∧
      t1.capacity = t2.capacity ∧ t1.write_pos = t2.write_pos ∧
      t1.read_pos = t2.read_pos ∧
      t1.available_to_write = t2.available_to_write ∧
      t1.available_to_read = t2.available_to_read ∧
      t1.closed = t2.closed ∧ t1.buffer.length = t2.buffer.length ∧
      ∀ i, i < t1.available_to_read →
        t1.buffer.getD ((t1.read_pos + i) % t1.capacity) 0 =
          t2.buffer.getD ((t2.read_pos + i) % t2.capacity) 0) := by
  have hg : (MainRingBuffer.new c).toGeneric =
      RingBuffer.new c (List.replicate c 0) := rfl
  have hrel0 : EquivUpToJunk ((MainRingBuffer.new c).toGeneric)
      (RingBuffer.new c junk) := by
    rw [hg]
    exact ⟨rfl, rfl, rfl, rfl, rfl, rfl,
      by rw [show (RingBuffer.new c (List.replicate c 0)).buffer =
          List.replicate c 0 from rfl, List.length_replicate,
        show (RingBuffer.new c junk).buffer = junk from rfl, hj], rfl⟩
  have hwa : ((MainRingBuffer.new c).toGeneric).Wf := by
    rw [hg]
    exact RingBuffer.wf_new c _ (List.length_replicate c 0)
  have hwb := RingBuffer.wf_new c junk hj
  have hcomm := toGeneric_runObs (MainRingBuffer.new c) ops
  rcases equiv_runObs ops hrel0 hwa hwb with ⟨e, h1, h2⟩ |
    ⟨os, t1g, t2g, h1, h2, hrel⟩
  · have hmain : (MainRingBuffer.new c).runObs ops = .error e := by
      cases hm : (MainRingBuffer.new c).runObs ops with
      | error e2 =>
        rw [hm, h1] at hcomm
        simp only [Except.map, Except.error.injEq] at hcomm
        rw [hcomm]
      | ok r =>
        rw [hm, h1] at hcomm
        exact absurd hcomm (by simp [Except.map])
    constructor
    · rw [hmain, h2]
      rfl
    · intro o1 t1 o2 t2 hok1 hok2
      rw [hmain] at hok1
      exact absurd hok1 (by simp)
  · obtain ⟨r, hm, hpack⟩ :
        ∃ r, (MainRingBuffer.new c).runObs ops = .ok r ∧
          (r.1, r.2.toGeneric) = (os, t1g) := by
      cases hm : (MainRingBuffer.new c).runObs ops with
      | error e2 =>
        rw [hm, h1] at hcomm
        exact absurd hcomm (by simp [Except.map])
      | ok r =>
        rw [hm, h1] at hcomm
        simp only [Except.map, Except.ok.injEq] at hcomm
        exact ⟨r, rfl, hcomm⟩
    have hos : r.1 = os := congrArg Prod.fst hpack
    have hgen : r.2.toGeneric = t1g := congrArg Prod.snd hpack
    constructor
    · rw [hm, h2]
      simp only [Except.map]
      rw [hos]
    · intro o1 t1 o2 t2 hok1 hok2
      have hr1 : r = (o1, t1) := by
        have hh := hm.symm.trans hok1
        simp only [Except.ok.injEq] at hh
        exact hh
      have hr2 : (os, t2g) = (o2, t2) := by
        have hh := h2.symm.trans hok2
        simp only [Except.ok.injEq] at hh
        exact hh
      have ho2 : os = o2 := congrArg Prod.fst hr2
      have ht2 : t2g = t2 := congrArg Prod.snd hr2
      have ho1 : r.1 = o1 := congrArg Prod.fst hr1
      have ht1 : r.2 = t1 := congrArg Prod.snd hr1
      have hgen1 : t1.toGeneric = t1g := by rw [← ht1]; exact hgen
      rw [← ht2] at hok2 ⊢
      rw [← hgen1] at hrel
      obtain ⟨hc', hwp', hrp', haw', har', hcl', hlen', habs'⟩ := hrel
      refine ⟨ho1.symm.trans (hos.trans ho2), hc', hwp', hrp', haw', har',
        hcl', hlen', ?_⟩
      intro i hi
      have e1 := RingBuffer.absQ_getD t1.toGeneric 0 i hi
      have e2 := RingBuffer.absQ_getD t2g 0 i (by
        have hh : t1.toGeneric.available_to_read = t2g.available_to_read :=
          har'
        rw [← hh]
        exact hi)
      exact e1.symm.trans (by rw [habs']; exact e2)

/-- C10 witness: a concrete mixed workload on capacity 3 produces the same
observation trace on both implementations, junk storage notwithstanding. -/
theorem claim_C10_w :
    ((MainRingBuffer.new 3).runObs
        [.put [1, 2], .get [0, 0], .put [3, 4, 5], .is_closed, .close,
          .is_closed, .get [0, 0, 0]]).map (fun r => r.1) =
      ((RingBuffer.new 3 [7, 8, 9]).runObs
        [.put [1, 2], .get [0, 0], .put [3, 4, 5], .is_closed, .close,
          .is_closed, .get [0, 0, 0]]).map (fun r => r.1) :=
  (claim_C10 3 [7, 8, 9]
    [.put [1, 2], .get [0, 0], .put [3, 4, 5], .is_closed, .close,
      .is_closed, .get [0, 0, 0]] rfl).1

/-- `usize::from_str` rejects any string whose post-sign part contains a
non-digit character. -/
theorem parseUsize_none_of_nondigit (arg : List Char) (c : Char)
    (hc : c ∈ usizeDigits arg) (hnd : c.isDigit = false) :
    parseUsize arg = none := by
  have hne : usizeDigits arg ≠ [] := List.ne_nil_of_mem hc
  have hall : (usizeDigits arg).all (fun ch => ch.isDigit) = false := by
    cases hb : (usizeDigits arg).all (fun ch => ch.isDigit) with
    | false => rfl
    | true =>
      rw [List.all_eq_true] at hb
      have hcd := hb c hc
      rw [hnd] at hcd
      exact Bool.noConfusion hcd
  rw [parseUsize]
  simp only [if_neg hne, hall]
  rfl

/-- C7 counterexample: the CLI does not accept `"256m"` — `main` parses the
size argument with plain `str::parse::<usize>()`, so the suffixed string is
rejected with the usage message and exit code 1 instead of yielding
268435456. -/
theorem claim_C7_cx :
    mainConfig ["pipebuffer", "256m"] =
      .error ("Non-numeric buffer_size.", 1) ∧
    mainConfig ["pipebuffer", "256m"] ≠ .ok 268435456 := by
  refine ⟨rfl, ?_⟩
  intro h
  have h2 := (rfl : mainConfig ["pipebuffer", "256m"] =
    .error ("Non-numeric buffer_size.", 1)).symm.trans h
  exact Except.noConfusion h2

/-- C7 (amended): the CLI accepts its single buffer-size argument only as a
raw decimal `usize` numeral; any argument whose post-sign part contains a
non-digit character — in particular the unit-suffixed `"256m"` and `"2g"`,
and `"abc"` — makes `main` print the usage message and exit with code 1
(non-zero), while a plain numeral such as `"10"` is accepted with its
decimal value. -/
theorem claim_C7 (prog arg : String) (c : Char)
    (hc : c ∈ usizeDigits arg.data) (hnd : c.isDigit = false) :
    mainConfig [prog, arg] = .error ("Non-numeric buffer_size.", 1) ∧
    mainConfig [prog, "10"] = .ok 10 ∧
    mainConfig [prog, "256m"] = .error ("Non-numeric buffer_size.", 1) ∧
    mainConfig [prog, "2g"] = .error ("Non-numeric buffer_size.", 1) ∧
    mainConfig [prog, "abc"] = .error ("Non-numeric buffer_size.", 1) ∧
    (1 : Nat) ≠ 0 := by
  refine ⟨?_, rfl, rfl, rfl, rfl, by omega⟩
  rw [mainConfig, if_neg (by simp),
    show ([prog, arg].getD 1 "") = arg from rfl,
    parseUsize_none_of_nondigit arg.data c hc hnd]

/-- C7 witness: `"abc"` is rejected with the usage error and exit code 1. -/
theorem claim_C7_w :
    mainConfig ["pipebuffer", "abc"] =
      .error ("Non-numeric buffer_size.", 1) :=
  (claim_C7 "pipebuffer" "abc" 'a' (by decide) (by decide)).1

end PipeBuffer
